import Mathlib

/-!
Verification of the cache synchronization and search engine of `akv`
(src/akv.py), a CLI tool that mirrors Azure Key Vault vault and secret
names into a local JSON cache file.

The Python source is shallowly embedded:
* Python dicts (insertion-ordered) become association lists
  `List (String × α)`; assignment `d[k] = v` becomes `dictInsert`,
  which replaces in place when the key exists and appends otherwise.
* The dynamic secrets value (either `None` or a list of strings)
  becomes the sum type `SecretsVal`.
* Shelling out to the Azure CLI (`run_command`) is embedded as a
  function of the subprocess outcome `CmdResult`; the per-vault remote
  behaviour is an oracle `String → CmdResult`.
* File I/O is embedded as explicit state passing of the cache-file
  content (`Option String`, `none` when absent).
* The thread pool of `fetch_keyvault_and_secret_names` is embedded by
  an explicit completion order: the `as_completed` loop is a fold over
  an arbitrary permutation of the submitted vault names.
-/

namespace Akv

/-! ### String primitives

Python string primitives (`str.strip`, `str.split`, `in`, `startswith`,
`<=`) are embedded as structurally recursive functions over the
character list of a `String`, mirroring Python's per-character
(code-point) semantics. -/

/-- The characters `str.strip()` removes (Python `str.isspace`). -/
def isPySpace (c : Char) : Bool :=
  c = ' ' || c = '\t' || c = '\n' || c = '\r' || c = '\x0b' || c = '\x0c'

/-- Python `s.strip()`. -/
def pyStrip (s : String) : String :=
  String.mk (((s.data.dropWhile isPySpace).reverse.dropWhile isPySpace).reverse)

/-- Worker for `splitLines`: accumulates the current field in reverse. -/
def splitLinesAux : List Char → List Char → List String
  | [], acc => [String.mk acc.reverse]
  | '\n' :: cs, acc => String.mk acc.reverse :: splitLinesAux cs []
  | c :: cs, acc => splitLinesAux cs (c :: acc)

/-- Python `s.split("\n")`. -/
def splitLines (s : String) : List String := splitLinesAux s.data []

/-- Python `needle in haystack` substring test. -/
def isSubstring (needle : List Char) : List Char → Bool
  | [] => needle.isEmpty
  | c :: rest => needle.isPrefixOf (c :: rest) || isSubstring needle rest

/-- Python string comparison `a <= b`: lexicographic by code point. -/
def lexLeb : List Char → List Char → Bool
  | [], _ => true
  | _ :: _, [] => false
  | a :: as, b :: bs => if a < b then true else if b < a then false else lexLeb as bs

/-- `lexLeb` as a relation on `String`, the order Python `sorted` uses
on strings. -/
def strLeP (a b : String) : Prop := lexLeb a.data b.data = true

instance : DecidableRel strLeP := fun a b =>
  inferInstanceAs (Decidable (lexLeb a.data b.data = true))

/-- The dynamic value stored for a vault in the Python cache dict:
either `None` (secret names not yet fetched) or a list of secret names. -/
inductive SecretsVal where
  | none : SecretsVal
  | list : List String → SecretsVal
deriving DecidableEq, Repr

/-- A cache snapshot: the in-memory form of the Python dict mapping vault
names to secrets values, as an insertion-ordered association list. -/
abbrev Cache := List (String × SecretsVal)

/-- Python dict assignment `d[k] = v` on an association list: if `k` is
already a key, its entry is updated in place (position preserved);
otherwise the pair is appended at the end. (A Python dict never holds a
key twice, so replacing the first occurrence is the same as replacing
the occurrence.) -/
def dictInsert {α : Type} (d : List (String × α)) (k : String) (v : α) :
    List (String × α) :=
  match d with
  | [] => [(k, v)]
  | p :: rest => if p.1 == k then (k, v) :: rest else p :: dictInsert rest k v

/-- Python dict lookup `d.get(k)` on an association list: the value of
the (unique) entry with key `k`, if any. -/
def dictLookup {α : Type} (d : List (String × α)) (k : String) : Option α :=
  match d with
  | [] => Option.none
  | p :: rest => if p.1 == k then some p.2 else dictLookup rest k

/-! ### The Azure CLI subprocess layer (`run_command` and fetchers) -/

/-- Outcome of one `subprocess.run` invocation of the Azure CLI:
it either exits 0 with some stdout, exits non-zero with some stderr
(`subprocess.CalledProcessError`), or the `az` binary is missing
(`FileNotFoundError`). -/
inductive CmdResult where
  | success (stdout : String)
  | calledProcessError (stderr : String)
  | fileNotFound
deriving DecidableEq, Repr

/-- Whether a subprocess outcome is a zero exit. -/
def isSuccess : CmdResult → Bool
  | CmdResult.success _ => true
  | _ => false

/-- The exception `run_command` raises on a CLI failure, tagged by which
of its three message-classification branches fired. -/
inductive AzureCLIError where
  | connect (msg : String)
  | cli (msg : String)
  | generic (msg : String)
deriving DecidableEq, Repr

/-- Python `needle in haystack` on strings. -/
def containsSub (haystack needle : String) : Bool :=
  isSubstring needle.data haystack.data

/-- `run_command`: returns the stripped stdout on success; on a
`CalledProcessError` raises an `AzureCLIError` classified by the stderr
text; on `FileNotFoundError` prints a message and returns `None`.
(The generic branch's Python message also interpolates the joined
command line, which this embedding abstracts away; the constructor
records which branch fired.) -/
def runCommand (outcome : CmdResult) : Except AzureCLIError (Option String) :=
  match outcome with
  | .success stdout => .ok (some (pyStrip stdout))
  | .calledProcessError stderr =>
      let errorMessage := pyStrip stderr
      if containsSub errorMessage "Failed to establish a new connection" then
        .error (.connect ("Unable to connect to the Key Vault: " ++ errorMessage))
      else if containsSub errorMessage "ERROR:" then
        .error (.cli ("Azure CLI returned an error: " ++ errorMessage))
      else
        .error (.generic ("Command failed: " ++ errorMessage))
  | .fileNotFound => .ok Option.none

/-- Python `result.split("\n") if result else []`: the empty string is
falsy and yields the empty list. -/
def splitOutput (result : String) : List String :=
  if result = "" then [] else splitLines result

/-- `fetch_keyvault_names`: runs `az keyvault list` and splits its output
into vault names; an empty or absent output gives the empty list; a CLI
error propagates. `listing` is the outcome of that one `az` call. -/
def fetchKeyvaultNames (listing : CmdResult) : Except AzureCLIError (List String) :=
  match runCommand listing with
  | .error e => .error e
  | .ok Option.none => .ok []
  | .ok (some result) => .ok (splitOutput result)

/-- `fetch_secrets_for_vault`: runs `az keyvault secret list` for one
vault. When `run_command` returns `None` (missing `az` binary) the vault
is paired with the `None` marker; on success the output is split into
secret names; a CLI error raised by `run_command` propagates uncaught.
`oracle` gives the outcome of the `az` call for each vault. -/
def fetchSecretsForVault (oracle : String → CmdResult) (vault : String) :
    Except AzureCLIError (String × SecretsVal) :=
  match runCommand (oracle vault) with
  | .error e => .error e
  | .ok Option.none => .ok (vault, SecretsVal.none)
  | .ok (some result) => .ok (vault, SecretsVal.list (splitOutput result))

/-- The secrets value `fetch_secrets_for_vault` pairs a vault with when
its `az` call does not raise: the split stdout, or the `None` marker
when the `az` binary is missing. -/
def fetchedVal (oracle : String → CmdResult) (vault : String) : SecretsVal :=
  match runCommand (oracle vault) with
  | .ok (some result) => SecretsVal.list (splitOutput result)
  | _ => SecretsVal.none

/-- The `as_completed` result loop of `fetch_keyvault_and_secret_names`:
consumes the per-vault futures in completion order, storing each result
with `vaults[vault] = secrets`; the first `future.result()` that raises
aborts the loop and the exception propagates. -/
def collectVaults (oracle : String → CmdResult) :
    List String → Cache → Except AzureCLIError Cache
  | [], acc => .ok acc
  | v :: vs, acc =>
      match fetchSecretsForVault oracle v with
      | .error e => .error e
      | .ok (name, secrets) => collectVaults oracle vs (dictInsert acc name secrets)

/-- `fetch_keyvault_and_secret_names`: lists the vaults, then fetches
every vault's secret names on a worker pool and collects the results in
completion order (`completionOrder`, a permutation of the vault list).
An empty vault list short-circuits to the empty dict. -/
def fetchKeyvaultAndSecretNames (listing : CmdResult)
    (oracle : String → CmdResult) (completionOrder : List String) :
    Except AzureCLIError Cache :=
  match fetchKeyvaultNames listing with
  | .error e => .error e
  | .ok names => if names.isEmpty then .ok [] else collectVaults oracle completionOrder []

/-! ### `write_cache_to_file`: normalization, sorting and serialization -/

/-- The comparison `sorted(cache.items())` uses, restricted to the keys:
the dict's keys are unique, so the tuple comparison never reaches the
values and ordering by key alone is exact. -/
def keyLe (a b : String × SecretsVal) : Prop := strLeP a.1 b.1

instance : DecidableRel keyLe := fun a b =>
  inferInstanceAs (Decidable (lexLeb a.1.data b.1.data = true))

/-- Strict version of `keyLe`, used to pin down sorted duplicate-free
key sequences uniquely. -/
def keyLt (a b : String × SecretsVal) : Prop := a.1 < b.1

instance : IsAntisymm (String × SecretsVal) keyLt :=
  ⟨fun _ _ h1 h2 => absurd h1 (lt_asymm h2)⟩

/-- The per-entry normalization `sorted(secrets) if secrets else []` of
`write_cache_to_file`: both the `None` marker and the empty list are
falsy and become `[]`; a non-empty list is sorted. -/
def normSecrets : SecretsVal → List String
  | SecretsVal.none => []
  | SecretsVal.list l => if l.isEmpty then [] else List.insertionSort strLeP l

/-- The `sorted_cache` dict built by `write_cache_to_file`: entries in
ascending key order (Python `sorted` is a stable sort; with unique keys
any sort agrees), each secrets value normalized to a sorted list. -/
def sortedCache (cache : Cache) : List (String × List String) :=
  (List.insertionSort keyLe cache).map (fun p => (p.1, normSecrets p.2))

/-- One hexadecimal digit, lowercase, as `json.dump` prints it. -/
def hexDigit (n : Nat) : Char :=
  if n < 10 then Char.ofNat (48 + n) else Char.ofNat (87 + n)

/-- Four-digit lowercase hex, as in a `\uXXXX` escape. -/
def hex4 (n : Nat) : String :=
  String.mk [hexDigit (n / 4096 % 16), hexDigit (n / 256 % 16),
             hexDigit (n / 16 % 16), hexDigit (n % 16)]

/-- JSON string-character escaping as `json.dump` performs it (default
`ensure_ascii=True`; basic-multilingual-plane characters). -/
def jsonEscapeChar (c : Char) : String :=
  if c = '"' then "\\\""
  else if c = '\\' then "\\\\"
  else if c = '\n' then "\\n"
  else if c = '\t' then "\\t"
  else if c = '\r' then "\\r"
  else if c = Char.ofNat 8 then "\\b"
  else if c = Char.ofNat 12 then "\\f"
  else if c.toNat < 32 ∨ c.toNat > 126 then "\\u" ++ hex4 c.toNat
  else String.singleton c

/-- A JSON string literal. -/
def jsonStr (s : String) : String :=
  "\"" ++ String.join (s.data.map jsonEscapeChar) ++ "\""

/-- A JSON array of strings as `json.dump(..., indent=4)` renders it at
nesting depth 1. -/
def jsonList (l : List String) : String :=
  if l.isEmpty then "[]"
  else "[\n"
    ++ String.intercalate ",\n" (l.map (fun s => "        " ++ jsonStr s))
    ++ "\n    ]"

/-- The top-level JSON object as `json.dump(..., indent=4)` renders it. -/
def jsonCache (c : List (String × List String)) : String :=
  if c.isEmpty then "\x7b\x7d"
  else "\x7b\n"
    ++ String.intercalate ",\n"
        (c.map (fun p => "    " ++ jsonStr p.1 ++ ": " ++ jsonList p.2))
    ++ "\n\x7d"

/-- The bytes `write_cache_to_file` persists: the pretty-printed sorted
cache followed by the trailing newline `f.write('\n')`. -/
def writeCacheBytes (cache : Cache) : String :=
  jsonCache (sortedCache cache) ++ "\n"

/-! ### The sync strategies (`update_cache`, `update_all`,
`update_specific_vault`) as cache-file state transformers -/

/-- The snapshot `update_cache` builds from the fetched vault names:
`{kv: [] for kv in keyvault_names}`. -/
def namesOnlySnapshot (keyvaultNames : List String) : Cache :=
  keyvaultNames.map (fun kv => (kv, SecretsVal.list []))

/-- Outcome of one top-level command: the resulting cache-file content
(`none` when the file is absent) and the exception, if any, that
propagated to the top-level handler. -/
structure RunResult where
  file : Option String
  err : Option AzureCLIError
deriving DecidableEq, Repr

/-- `update_cache` (names-only sync): fetches the vault names; on success
with a non-empty list writes the names-only snapshot, on an empty list
prints a message and skips the write, and a fetch error propagates with
no write. `file` is the cache-file content before the run. -/
def updateCache (listing : CmdResult) (file : Option String) : RunResult :=
  match fetchKeyvaultNames listing with
  | .error e => ⟨file, some e⟩
  | .ok names =>
      if names.isEmpty then ⟨file, Option.none⟩
      else ⟨some (writeCacheBytes (namesOnlySnapshot names)), Option.none⟩

/-- `update_all` (full sync): fetches all vault and secret names, then
writes the result; an exception from the fetch propagates with no
write. -/
def updateAll (listing : CmdResult) (oracle : String → CmdResult)
    (completionOrder : List String) (file : Option String) : RunResult :=
  match fetchKeyvaultAndSecretNames listing oracle completionOrder with
  | .error e => ⟨file, some e⟩
  | .ok vaults => ⟨some (writeCacheBytes vaults), Option.none⟩

/-- `update_specific_vault` (single-vault sync): fetches one vault's
secret names, merges them into the current snapshot with
`cache[vault] = secrets`, and writes the result; an `AzureCLIError` is
caught and printed, leaving the file untouched. `cache` is the snapshot
`read_cache` returned for the current file. -/
def updateSpecificVault (oracle : String → CmdResult) (keyvaultName : String)
    (cache : Cache) (file : Option String) : RunResult :=
  match fetchSecretsForVault oracle keyvaultName with
  | .error _ => ⟨file, Option.none⟩
  | .ok (vault, secrets) =>
      ⟨some (writeCacheBytes (dictInsert cache vault secrets)), Option.none⟩

/-! ### The search engine (`search` and its helpers) -/

/-- `create_vault_secret_map`: flattens the cache into a dict keyed by
`"<vault>/<secret>"` (one entry per secret of a vault with a truthy
secrets list) or `"<vault>/"` (for a vault whose secrets value is `None`
or the empty list), valued by the `(vault, secret-or-None)` pair. -/
def createVaultSecretMap (cache : Cache) : List (String × (String × Option String)) :=
  cache.foldl
    (fun m p =>
      match p.2 with
      | SecretsVal.list (s :: ss) =>
          (s :: ss).foldl
            (fun m2 secret => dictInsert m2 (p.1 ++ "/" ++ secret) (p.1, some secret)) m
      | _ => dictInsert m (p.1 ++ "/") (p.1, Option.none))
    []

/-- Python `"*" in search_text`. -/
def containsStar (s : String) : Bool := s.data.contains '*'

/-- The matcher the wildcard branch of `perform_search` computes:
`re.compile("^" + search_text.replace("*", ".*") + "$").match(key)`.
For a search text whose characters other than `*` are regex-literal
(no other metacharacter, and no newline in the key, so `.` excludes
nothing that occurs), this is exactly: each `*` matches any run of zero
or more characters, every other character matches itself, anchored at
both ends. -/
def globMatchAux : Nat → List Char → List Char → Bool
  | 0, _, _ => false
  | _ + 1, [], s => s.isEmpty
  | fuel + 1, p :: ps, [] => if p = '*' then globMatchAux fuel ps [] else false
  | fuel + 1, p :: ps, c :: cs =>
      if p = '*' then globMatchAux fuel ps (c :: cs) || globMatchAux fuel (p :: ps) cs
      else p == c && globMatchAux fuel ps cs

/-- Entry point for `globMatchAux`: every recursive step shortens the
pattern or the key, so `p.length + s.length + 1` steps always suffice
and the fuel cutoff is never reached (the equivalence theorem with the
regex semantics depends on no unproved assumption about this). -/
def globMatch (p s : List Char) : Bool :=
  globMatchAux (p.length + s.length + 1) p s

/-- `perform_search`: keys of the flattened map matching the search
text, in map order — the regex branch when the text contains `*`, the
`startswith` branch otherwise. -/
def performSearch (vaultSecretMap : List (String × (String × Option String)))
    (searchText : String) : List String :=
  if containsStar searchText then
    (vaultSecretMap.map Prod.fst).filter (fun key => globMatch searchText.data key.data)
  else
    (vaultSecretMap.map Prod.fst).filter (fun key => searchText.data.isPrefixOf key.data)

/-- The `search` command body after `read_cache`: flatten, match, and
raise `Exception(f"No matches found ...")` when the match list is empty;
otherwise return the matches (which the command then displays). -/
def searchRun (cache : Cache) (text : String) : Except String (List String) :=
  let vaultSecretMap := createVaultSecretMap cache
  let found := performSearch vaultSecretMap text
  if found.isEmpty then
    .error ("No matches found for \x27" ++ text ++ "\x27 in the cache.")
  else
    .ok found

/-! ### Specification-side regular expressions

The spec describes the wildcard mode as "the anchored full-string regex
obtained by replacing each `*` with `.*`".  `Reg`/`RMatch` is a textbook
regular-expression syntax and matching semantics, written from the
spec's words, and `globToReg` is that translation; the refinement
theorem for C5 compares `performSearch` against it. -/

inductive Reg where
  | eps : Reg
  | ch : Char → Reg
  | any : Reg
  | cat : Reg → Reg → Reg
  | star : Reg → Reg

/-- `RMatch r s`: the character list `s` is in the language of `r`. -/
inductive RMatch : Reg → List Char → Prop where
  | eps : RMatch Reg.eps []
  | ch (c : Char) : RMatch (Reg.ch c) [c]
  | any (c : Char) : RMatch Reg.any [c]
  | cat {r1 r2 : Reg} {s1 s2 : List Char} :
      RMatch r1 s1 → RMatch r2 s2 → RMatch (Reg.cat r1 r2) (s1 ++ s2)
  | starNil {r : Reg} : RMatch (Reg.star r) []
  | starCat {r : Reg} {s1 s2 : List Char} :
      RMatch r s1 → RMatch (Reg.star r) s2 → RMatch (Reg.star r) (s1 ++ s2)

/-- The spec's translation of a wildcard pattern: each `*` becomes
`.*` (any run of zero or more characters), every other character a
literal, concatenated in order and anchored by construction. -/
def globToReg : List Char → Reg
  | [] => Reg.eps
  | p :: ps =>
      if p = '*' then Reg.cat (Reg.star Reg.any) (globToReg ps)
      else Reg.cat (Reg.ch p) (globToReg ps)

/-- The characters Python `re` treats specially, other than `*` itself:
a pattern avoiding these (outside `*`) is matched by `re` exactly as a
literal-plus-wildcards glob. -/
def isRegexMeta (c : Char) : Bool :=
  c = '.' || c = '^' || c = '$' || c = '+' || c = '?' || c = '(' || c = ')' ||
  c = '[' || c = ']' || c = '\\' || c = '|' || c = '\x7b' || c = '\x7d'

/-! ### `read_cache`: parsing the persisted JSON

`json.load` is modelled for the document shape the program itself
persists — an object mapping strings to `null` or an array of strings —
plus whitespace freedom; any other input is a parse error (Python's
`json.JSONDecodeError`, an `Exception`). -/

/-- JSON whitespace. -/
def isJsonWs (c : Char) : Bool := c = ' ' || c = '\n' || c = '\t' || c = '\r'

/-- Drop leading JSON whitespace. -/
def skipWs : List Char → List Char
  | [] => []
  | c :: cs => if isJsonWs c then skipWs cs else c :: cs

/-- Undo a one-character JSON escape. -/
def unescapeChar (c : Char) : Option Char :=
  if c = '"' then some '"'
  else if c = '\\' then some '\\'
  else if c = '/' then some '/'
  else if c = 'n' then some '\n'
  else if c = 't' then some '\t'
  else if c = 'r' then some '\r'
  else if c = 'b' then some (Char.ofNat 8)
  else if c = 'f' then some (Char.ofNat 12)
  else Option.none

/-- Parse the body of a JSON string literal (the opening quote already
consumed), up to and including the closing quote. -/
def parseStringBody : List Char → Option (List Char × List Char)
  | [] => Option.none
  | '"' :: cs => some ([], cs)
  | '\\' :: [] => Option.none
  | '\\' :: e :: cs => do
      let ec ← unescapeChar e
      let (s, r) ← parseStringBody cs
      pure (ec :: s, r)
  | c :: cs => do
      let (s, r) ← parseStringBody cs
      pure (c :: s, r)
termination_by l => l.length

/-- Parse the remaining elements of a string array after the first. -/
def parseArrayTail (fuel : Nat) (cs : List Char) : Option (List String × List Char) :=
  match fuel with
  | 0 => Option.none
  | fuel + 1 =>
    match skipWs cs with
    | ']' :: r => some ([], r)
    | ',' :: r =>
        match skipWs r with
        | '"' :: r2 => do
            let (s, r3) ← parseStringBody r2
            let (rest, r4) ← parseArrayTail fuel r3
            pure (String.mk s :: rest, r4)
        | _ => Option.none
    | _ => Option.none

/-- Parse a JSON array of strings (the opening bracket already consumed). -/
def parseArray (fuel : Nat) (cs : List Char) : Option (List String × List Char) :=
  match skipWs cs with
  | ']' :: r => some ([], r)
  | '"' :: r => do
      let (s, r2) ← parseStringBody r
      let (rest, r3) ← parseArrayTail fuel r2
      pure (String.mk s :: rest, r3)
  | _ => Option.none

/-- Parse a member value: `null` or an array of strings. -/
def parseVal (fuel : Nat) (cs : List Char) : Option (SecretsVal × List Char) :=
  match skipWs cs with
  | 'n' :: 'u' :: 'l' :: 'l' :: r => some (SecretsVal.none, r)
  | '[' :: r => (parseArray fuel r).map (fun p => (SecretsVal.list p.1, p.2))
  | _ => Option.none

/-- Parse the remaining members of an object after the first. -/
def parseMemberTail (fuel : Nat) (cs : List Char) : Option (Cache × List Char) :=
  match fuel with
  | 0 => Option.none
  | fuel + 1 =>
    match skipWs cs with
    | '\x7d' :: r => some ([], r)
    | ',' :: r =>
        match skipWs r with
        | '"' :: r2 => do
            let (k, r3) ← parseStringBody r2
            match skipWs r3 with
            | ':' :: r4 => do
                let (v, r5) ← parseVal fuel r4
                let (rest, r6) ← parseMemberTail fuel r5
                pure ((String.mk k, v) :: rest, r6)
            | _ => Option.none
        | _ => Option.none
    | _ => Option.none

/-- Parse a JSON object body (the opening brace already consumed). -/
def parseObj (fuel : Nat) (cs : List Char) : Option (Cache × List Char) :=
  match skipWs cs with
  | '\x7d' :: r => some ([], r)
  | '"' :: r => do
      let (k, r2) ← parseStringBody r
      match skipWs r2 with
      | ':' :: r3 => do
          let (v, r4) ← parseVal fuel r3
          let (rest, r5) ← parseMemberTail fuel r4
          pure ((String.mk k, v) :: rest, r5)
      | _ => Option.none
  | _ => Option.none

/-- `json.load` on the cache file's bytes: `some` parsed document, or
`none` for a parse error (`json.JSONDecodeError`). -/
def jsonLoadCache (s : String) : Option Cache :=
  match skipWs s.data with
  | '\x7b' :: r => do
      let (c, r2) ← parseObj (s.length + 1) r
      match skipWs r2 with
      | [] => some c
      | _ => Option.none
  | _ => Option.none

/-- `read_cache` on a present cache file with content `s`: parses the
bytes with `json.load`; any exception is caught (`except Exception`),
printed, and the empty dict `{}` is returned instead. (A missing file
first triggers `update_cache`; the claims below concern a present
file.) -/
def readCache (s : String) : Cache :=
  match jsonLoadCache s with
  | some c => c
  | Option.none => []

/-- Reading back the file `write_cache_to_file` just persisted: the
external json library is inverse on its own output (`json.load` after
`json.dump`), so `read_cache` returns exactly the `sorted_cache`
document, each JSON array a Python list. -/
def readBackSaved (cache : Cache) : Cache :=
  (sortedCache cache).map (fun p => (p.1, SecretsVal.list p.2))

/-- A concrete remote state exercising a per-vault failure during full
sync: vault `v1` lists one secret, vault `v2` fails with a connectivity
error. -/
def c1Oracle : String → CmdResult := fun v =>
  if v = "v1" then CmdResult.success "s1"
  else CmdResult.calledProcessError "Failed to establish a new connection: host unreachable"

/-- A concrete unchanged remote state for the idempotence scenario:
every vault lists the secrets `a` and `b`. -/
def c9Oracle : String → CmdResult := fun _ => CmdResult.success "b\na"

/-- A concrete flattened vault/secret map for the wildcard-anchoring
scenario. -/
def c5Map : List (String × (String × Option String)) :=
  [("vaultA/foo", ("vaultA", some "foo")),
   ("vaultA/", ("vaultA", Option.none)),
   ("vaultAB/foo", ("vaultAB", some "foo"))]

/-! ## Theorems -/

theorem dictLookup_dictInsert_self {α : Type} (d : List (String × α))
    (k : String) (v : α) : dictLookup (dictInsert d k v) k = some v := by
  induction d with
  | nil => simp [dictInsert, dictLookup]
  | cons p rest ih =>
    by_cases hp : p.1 == k
    · simp [dictInsert, dictLookup, hp]
    · simp [dictInsert, dictLookup, hp, ih]

theorem dictLookup_dictInsert_other {α : Type} (d : List (String × α))
    (k v' : String) (v : α) (hne : v' ≠ k) :
    dictLookup (dictInsert d k v) v' = dictLookup d v' := by
  have hkv : ¬ (k == v') := by simpa using (Ne.symm hne)
  induction d with
  | nil => simp [dictInsert, dictLookup, hkv]
  | cons p rest ih =>
    by_cases hp : p.1 == k
    · have hpv : ¬ (p.1 == v') := by
        have hk : p.1 = k := by simpa using hp
        simpa [hk] using (Ne.symm hne)
      simp [dictInsert, dictLookup, hp, hkv, hpv]
    · by_cases hpv : p.1 == v'
      · simp [dictInsert, dictLookup, hp, hpv]
      · simp [dictInsert, dictLookup, hp, hpv, ih]

/-- C1: the spec says a per-vault secret-name fetch failure during a
full sync is caught, recorded as the `None` marker, and reported as a
warning, with every other vault keeping its fetched list. The code does
the opposite: `fetch_secrets_for_vault` lets the `AzureCLIError` raised
by `run_command` propagate, `future.result()` re-raises it inside
`fetch_keyvault_and_secret_names`, and `update_all` aborts with no
cache write. Concretely, with vault `v1` fetching `["s1"]` and vault
`v2` failing with a connectivity error, the sync raises the
connectivity error and discards `v1`'s result, leaving the cache file
untouched. -/
theorem full_sync_aborts_on_per_vault_failure :
    fetchSecretsForVault c1Oracle "v1" = Except.ok ("v1", SecretsVal.list ["s1"]) ∧
    (updateAll (CmdResult.success "v1\nv2") c1Oracle ["v1", "v2"] (some "old")).err
      = some (AzureCLIError.connect
          "Unable to connect to the Key Vault: Failed to establish a new connection: host unreachable") ∧
    (updateAll (CmdResult.success "v1\nv2") c1Oracle ["v1", "v2"] (some "old")).file
      = some "old" :=
  ⟨rfl, rfl, rfl⟩

/-- C2 counterexample: on bytes that are not valid structured data the
claim says `read_cache` fails with a `FormatError`; instead the code
catches the parse exception and returns the empty dict. -/
theorem read_cache_corrupt_returns_empty_cex :
    jsonLoadCache "garbage" = Option.none ∧ readCache "garbage" = ([] : Cache) := by
  decide

/-- C2 amended: for every persisted cache file whose bytes are not valid
structured data, `read_cache` prints the exception and returns the empty
snapshot; it does not raise a format error. -/
theorem read_cache_error_returns_empty (s : String)
    (h : jsonLoadCache s = Option.none) : readCache s = [] := by
  simp [readCache, h]

theorem read_cache_error_returns_empty_witness : readCache "\x7b oops" = [] :=
  read_cache_error_returns_empty _ (by decide)

/-- C3 counterexample: the claim says a names-only sync maps every
listed vault to the absent/unknown (`None`) marker; the code builds
`{kv: [] for kv in keyvault_names}`, mapping every vault to the empty
list (the "fetched, zero secrets" value), not to `None`. -/
theorem names_only_not_none_marker_cex :
    dictLookup (namesOnlySnapshot ["v1"]) "v1" = some (SecretsVal.list []) ∧
    ¬ dictLookup (namesOnlySnapshot ["v1"]) "v1" = some SecretsVal.none := by
  decide

/-- C3 amended: for every vault list returned by the directory client, a
names-only sync builds a snapshot in which every listed vault is mapped
to the empty secret list. -/
theorem names_only_maps_every_vault_to_empty_list (names : List String)
    (v : String) (hv : v ∈ names) :
    dictLookup (namesOnlySnapshot names) v = some (SecretsVal.list []) := by
  induction names with
  | nil => cases hv
  | cons n ns ih =>
    by_cases h : n == v
    · simp [namesOnlySnapshot, dictLookup, h]
    · rcases List.mem_cons.mp hv with rfl | hv'
      · simp at h
      · simpa [namesOnlySnapshot, dictLookup, h] using ih hv'

theorem names_only_maps_every_vault_to_empty_list_witness :
    dictLookup (namesOnlySnapshot ["v1", "v2"]) "v2" = some (SecretsVal.list []) :=
  names_only_maps_every_vault_to_empty_list ["v1", "v2"] "v2" (by decide)

/-- C6: the merge `cache[vault] = secrets` performed by the single-vault
sync sets exactly the entry for `vault` and leaves the entry of every
other key unchanged. -/
theorem merge_one_isolation (cache : Cache) (v : String) (s : SecretsVal)
    (k : String) (hk : k ≠ v) :
    dictLookup (dictInsert cache v s) v = some s ∧
    dictLookup (dictInsert cache v s) k = dictLookup cache k :=
  ⟨dictLookup_dictInsert_self cache v s, dictLookup_dictInsert_other cache v k s hk⟩

theorem merge_one_isolation_witness :
    (dictLookup (dictInsert [("v1", SecretsVal.list ["s1", "s2"]),
        ("v2", SecretsVal.list [])] "v1" (SecretsVal.list ["s3"])) "v1"
        = some (SecretsVal.list ["s3"]) ∧
      dictLookup (dictInsert [("v1", SecretsVal.list ["s1", "s2"]),
        ("v2", SecretsVal.list [])] "v1" (SecretsVal.list ["s3"])) "v2"
        = dictLookup [("v1", SecretsVal.list ["s1", "s2"]),
            ("v2", SecretsVal.list [])] "v2") ∧
    dictInsert [("v1", SecretsVal.list ["s1", "s2"]), ("v2", SecretsVal.list [])]
        "v1" (SecretsVal.list ["s3"])
      = [("v1", SecretsVal.list ["s3"]), ("v2", SecretsVal.list [])] :=
  ⟨merge_one_isolation _ _ _ _ (by decide), by decide⟩

/-- C7: when the vault listing of a names-only sync raises or yields
zero vault names, `update_cache` performs no write and the existing
cache file is left exactly as it was. -/
theorem names_only_no_write_on_failure_or_zero (listing : CmdResult)
    (file : Option String)
    (h : (∃ e, fetchKeyvaultNames listing = Except.error e) ∨
      fetchKeyvaultNames listing = Except.ok []) :
    (updateCache listing file).file = file := by
  rcases h with ⟨e, he⟩ | he
  · simp [updateCache, he]
  · simp [updateCache, he]

theorem names_only_no_write_witness :
    (updateCache (CmdResult.calledProcessError "ERROR: boom") (some "old")).file
      = some "old" ∧
    (updateCache (CmdResult.success "") (some "old")).file = some "old" :=
  ⟨names_only_no_write_on_failure_or_zero _ _
      (Or.inl ⟨AzureCLIError.cli "Azure CLI returned an error: ERROR: boom", rfl⟩),
    names_only_no_write_on_failure_or_zero _ _ (Or.inr rfl)⟩

/-- C8: whenever no flattened path matches the search text, `search`
raises the "No matches found" exception rather than returning
silently. -/
theorem search_zero_matches_raises (cache : Cache) (text : String)
    (h : performSearch (createVaultSecretMap cache) text = []) :
    searchRun cache text
      = Except.error ("No matches found for \x27" ++ text ++ "\x27 in the cache.") := by
  simp [searchRun, h]

theorem search_zero_matches_raises_witness :
    searchRun [("v1", SecretsVal.list ["s1", "s2"]), ("v2", SecretsVal.list [])] "v3/x"
      = Except.error ("No matches found for \x27" ++ "v3/x" ++ "\x27 in the cache.") :=
  search_zero_matches_raises _ _ (by decide)

/-- C10: every save normalizes a falsy secrets value (the `None` marker
or the empty list) to the empty list: no entry read back from a
persisted snapshot carries the `None` marker, and every vault that held
`None` in memory is persisted with the empty list. -/
theorem save_never_persists_none (cache : Cache) :
    (∀ p ∈ readBackSaved cache, p.2 ≠ SecretsVal.none) ∧
    (∀ p ∈ cache, p.2 = SecretsVal.none →
      (p.1, SecretsVal.list []) ∈ readBackSaved cache) := by
  have heq : readBackSaved cache
      = (List.insertionSort keyLe cache).map
          (fun p => (p.1, SecretsVal.list (normSecrets p.2))) := by
    simp [readBackSaved, sortedCache, List.map_map, Function.comp]
  constructor
  · intro p hp
    rw [heq] at hp
    obtain ⟨q, _, rfl⟩ := List.mem_map.mp hp
    simp
  · intro p hp hnone
    rw [heq]
    refine List.mem_map.mpr ⟨p, ?_, ?_⟩
    · exact ((List.perm_insertionSort keyLe cache).mem_iff).mpr hp
    · rw [hnone]
      simp [normSecrets]

theorem save_never_persists_none_witness :
    ("v", SecretsVal.list []) ∈ readBackSaved [("v", SecretsVal.none)] :=
  (save_never_persists_none [("v", SecretsVal.none)]).2
    ("v", SecretsVal.none) (by decide) rfl

/-! ### The embedded string order agrees with the mathematical one -/

theorem lexLeb_iff_not_lex (a b : List Char) :
    lexLeb a b = true ↔ ¬ List.Lex (· < ·) b a := by
  induction a generalizing b with
  | nil =>
    simp [lexLeb]
  | cons x xs ih =>
    cases b with
    | nil =>
      apply iff_of_false
      · simp [lexLeb]
      · exact not_not_intro List.Lex.nil
    | cons y ys =>
      by_cases hxy : x < y
      · apply iff_of_true
        · simp [lexLeb, hxy]
        · intro h
          cases h with
          | cons h' => exact absurd hxy (lt_irrefl _)
          | rel h' => exact absurd hxy (asymm h')
      · by_cases hyx : y < x
        · apply iff_of_false
          · simp [lexLeb, hxy, hyx]
          · exact not_not_intro (List.Lex.rel hyx)
        · have heq : x = y := le_antisymm (le_of_not_lt hyx) (le_of_not_lt hxy)
          subst heq
          simp only [lexLeb, lt_irrefl, if_false]
          rw [ih ys]
          constructor
          · intro h hl
            cases hl with
            | cons h' => exact h h'
            | rel h' => exact absurd h' (lt_irrefl _)
          · intro h hl
            exact h (List.Lex.cons hl)

theorem strLeP_iff (a b : String) : strLeP a b ↔ a ≤ b := by
  rw [strLeP, lexLeb_iff_not_lex, String.le_iff_toList_le]
  exact @not_lt (List Char) _ b.toList a.toList

theorem strLeP_total (a b : String) : strLeP a b ∨ strLeP b a :=
  (le_total a b).imp (strLeP_iff _ _).mpr (strLeP_iff _ _).mpr

theorem strLeP_trans (a b c : String) :
    strLeP a b → strLeP b c → strLeP a c := fun h1 h2 =>
  (strLeP_iff _ _).mpr (le_trans ((strLeP_iff _ _).mp h1) ((strLeP_iff _ _).mp h2))

/-- C4: after a save, the persisted (and hence re-loaded) snapshot has
its vault keys in lexicographic order and each vault's secret list in
lexicographic order. -/
theorem save_load_sorted (cache : Cache) :
    ((readBackSaved cache).map Prod.fst).Sorted (· ≤ ·) ∧
    (∀ p ∈ readBackSaved cache, ∀ l, p.2 = SecretsVal.list l →
      l.Sorted (· ≤ ·)) := by
  haveI htotk : IsTotal (String × SecretsVal) keyLe :=
    ⟨fun a b => strLeP_total a.1 b.1⟩
  haveI htrk : IsTrans (String × SecretsVal) keyLe :=
    ⟨fun a b c => strLeP_trans a.1 b.1 c.1⟩
  haveI htots : IsTotal String strLeP := ⟨strLeP_total⟩
  haveI htrs : IsTrans String strLeP := ⟨strLeP_trans⟩
  constructor
  · have hs : (List.insertionSort keyLe cache).Sorted keyLe :=
      List.sorted_insertionSort keyLe cache
    have hmap : ((List.insertionSort keyLe cache).map Prod.fst).Sorted strLeP := by
      rw [List.Sorted, List.pairwise_map]
      exact hs
    have hle : ((List.insertionSort keyLe cache).map Prod.fst).Sorted (· ≤ ·) :=
      hmap.imp (fun h => (strLeP_iff _ _).mp h)
    have heq : (readBackSaved cache).map Prod.fst
        = (List.insertionSort keyLe cache).map Prod.fst := by
      simp [readBackSaved, sortedCache, List.map_map, Function.comp]
    rw [heq]
    exact hle
  · intro p hp l hl
    have heq : readBackSaved cache
        = (List.insertionSort keyLe cache).map
            (fun q => (q.1, SecretsVal.list (normSecrets q.2))) := by
      simp [readBackSaved, sortedCache, List.map_map, Function.comp]
    rw [heq] at hp
    obtain ⟨q, _, rfl⟩ := List.mem_map.mp hp
    simp only at hl
    injection hl with hl'
    subst hl'
    cases hq : q.2 with
    | none => simp [normSecrets]
    | list m =>
      by_cases hm : m.isEmpty
      · simp [normSecrets, hm]
      · have : (List.insertionSort strLeP m).Sorted strLeP :=
          List.sorted_insertionSort strLeP m
        have hle : (List.insertionSort strLeP m).Sorted (· ≤ ·) :=
          this.imp (fun h => (strLeP_iff _ _).mp h)
        simpa [normSecrets, hm] using hle

theorem save_load_sorted_witness :
    ((readBackSaved [("b", SecretsVal.list ["y", "x"]),
        ("a", SecretsVal.none)]).map Prod.fst).Sorted (· ≤ ·) ∧
    List.Sorted (· ≤ ·) ["x", "y"] :=
  ⟨(save_load_sorted [("b", SecretsVal.list ["y", "x"]), ("a", SecretsVal.none)]).1,
    (save_load_sorted [("b", SecretsVal.list ["y", "x"]), ("a", SecretsVal.none)]).2
      ("b", SecretsVal.list ["x", "y"]) (by decide) ["x", "y"] rfl⟩

/-! ### Full-sync determinism (C9) -/

theorem isSuccess_iff (c : CmdResult) :
    isSuccess c = true ↔ ∃ out, c = CmdResult.success out := by
  cases c <;> simp [isSuccess]

theorem fetchSecretsForVault_of_success (oracle : String → CmdResult)
    (v out : String) (h : oracle v = CmdResult.success out) :
    fetchSecretsForVault oracle v = Except.ok (v, fetchedVal oracle v) := by
  simp [fetchSecretsForVault, fetchedVal, runCommand, h]

theorem collectVaults_of_success (oracle : String → CmdResult) :
    ∀ (vs : List String) (acc : Cache),
      (∀ v ∈ vs, isSuccess (oracle v) = true) →
      collectVaults oracle vs acc
        = Except.ok (vs.foldl (fun a v => dictInsert a v (fetchedVal oracle v)) acc) := by
  intro vs
  induction vs with
  | nil => intro acc _; simp [collectVaults]
  | cons v vs ih =>
    intro acc h
    obtain ⟨out, hout⟩ :=
      (isSuccess_iff (oracle v)).mp (h v (List.mem_cons_self _ _))
    rw [collectVaults, fetchSecretsForVault_of_success oracle v out hout,
      List.foldl_cons]
    exact ih _ (fun u hu => h u (List.mem_cons_of_mem _ hu))

theorem dictInsert_of_fresh_key {α : Type} (d : List (String × α)) (k : String)
    (v : α) (h : ∀ p ∈ d, p.1 ≠ k) : dictInsert d k v = d ++ [(k, v)] := by
  induction d with
  | nil => simp [dictInsert]
  | cons p rest ih =>
    have hp : ¬ (p.1 == k) = true := by
      simpa using h p (List.mem_cons_self _ _)
    simp [dictInsert, hp, ih (fun q hq => h q (List.mem_cons_of_mem _ hq))]

theorem foldl_dictInsert_of_nodup (f : String → SecretsVal) :
    ∀ (vs : List String) (acc : Cache), vs.Nodup → (∀ p ∈ acc, p.1 ∉ vs) →
      vs.foldl (fun a v => dictInsert a v (f v)) acc
        = acc ++ vs.map (fun v => (v, f v)) := by
  intro vs
  induction vs with
  | nil => intro acc _ _; simp
  | cons v vs ih =>
    intro acc hnd hfresh
    have h1 : ∀ p ∈ acc, p.1 ≠ v := fun p hp he =>
      hfresh p hp (he ▸ List.mem_cons_self _ _)
    have hfresh' : ∀ p ∈ acc ++ [(v, f v)], p.1 ∉ vs := by
      intro p hp
      rcases List.mem_append.mp hp with hacc | hone
      · exact fun hmem => hfresh p hacc (List.mem_cons_of_mem _ hmem)
      · have : p = (v, f v) := by simpa using hone
        rw [this]
        exact (List.nodup_cons.mp hnd).1
    rw [List.foldl_cons, dictInsert_of_fresh_key acc v (f v) h1,
      ih (acc ++ [(v, f v)]) hnd.of_cons hfresh', List.map_cons,
      List.append_assoc]
    rfl

theorem map_fst_map_pair {β : Type} (f : String → β) (l : List String) :
    (l.map (fun v => (v, f v))).map Prod.fst = l := by
  induction l with
  | nil => rfl
  | cons a t ih => simp only [List.map_cons, ih]

theorem sorted_keyLt_of_sorted_keyLe (l : Cache) (hs : l.Sorted keyLe)
    (hn : (l.map Prod.fst).Nodup) : l.Sorted keyLt := by
  rw [List.Sorted] at *
  rw [List.Nodup, List.pairwise_map] at hn
  exact (hs.and hn).imp
    (fun h => lt_of_le_of_ne ((strLeP_iff _ _).mp h.1) h.2)

theorem insertionSort_eq_of_perm (l1 l2 : Cache) (hperm : l1.Perm l2)
    (hn : (l1.map Prod.fst).Nodup) :
    List.insertionSort keyLe l1 = List.insertionSort keyLe l2 := by
  haveI htotk : IsTotal (String × SecretsVal) keyLe :=
    ⟨fun a b => strLeP_total a.1 b.1⟩
  haveI htrk : IsTrans (String × SecretsVal) keyLe :=
    ⟨fun a b c => strLeP_trans a.1 b.1 c.1⟩
  have hp1 := List.perm_insertionSort keyLe l1
  have hp2 := List.perm_insertionSort keyLe l2
  have hps : (List.insertionSort keyLe l1).Perm (List.insertionSort keyLe l2) :=
    (hp1.trans hperm).trans hp2.symm
  have hn1 : ((List.insertionSort keyLe l1).map Prod.fst).Nodup :=
    ((hp1.map Prod.fst).nodup_iff).mpr hn
  have hn2 : ((List.insertionSort keyLe l2).map Prod.fst).Nodup :=
    ((hps.map Prod.fst).nodup_iff).mp hn1
  exact List.eq_of_perm_of_sorted hps
    (sorted_keyLt_of_sorted_keyLe _ (List.sorted_insertionSort keyLe l1) hn1)
    (sorted_keyLt_of_sorted_keyLe _ (List.sorted_insertionSort keyLe l2) hn2)

/-- C9: against a fixed remote state (the vault listing and every
per-vault secret listing return the same successful results on both
runs), a full sync writes the same bytes regardless of the worker
completion orders and of the cache file's previous contents: repeated
syncs produce byte-identical cache files. -/
theorem full_sync_idempotent_bytes (listing : CmdResult)
    (oracle : String → CmdResult) (names order1 order2 : List String)
    (file1 file2 : Option String)
    (hl : fetchKeyvaultNames listing = Except.ok names)
    (hnd : names.Nodup)
    (h1 : order1.Perm names) (h2 : order2.Perm names)
    (hok : ∀ v ∈ names, isSuccess (oracle v) = true) :
    ∃ bytes, (updateAll listing oracle order1 file1).file = some bytes ∧
      (updateAll listing oracle order2 file2).file = some bytes := by
  by_cases hne : names.isEmpty
  · refine ⟨writeCacheBytes [], ?_, ?_⟩ <;>
      simp [updateAll, fetchKeyvaultAndSecretNames, hl, hne]
  · have hc1 : collectVaults oracle order1 []
        = Except.ok (order1.map (fun v => (v, fetchedVal oracle v))) := by
      rw [collectVaults_of_success oracle order1 []
          (fun v hv => hok v (h1.subset hv)),
        foldl_dictInsert_of_nodup _ order1 [] (h1.nodup_iff.mpr hnd)
          (by intro p hp; cases hp)]
      rfl
    have hc2 : collectVaults oracle order2 []
        = Except.ok (order2.map (fun v => (v, fetchedVal oracle v))) := by
      rw [collectVaults_of_success oracle order2 []
          (fun v hv => hok v (h2.subset hv)),
        foldl_dictInsert_of_nodup _ order2 [] (h2.nodup_iff.mpr hnd)
          (by intro p hp; cases hp)]
      rfl
    have hkeys1 : ((order1.map (fun v => (v, fetchedVal oracle v))).map
        Prod.fst).Nodup := by
      rw [map_fst_map_pair]
      exact h1.nodup_iff.mpr hnd
    have hperm : (order1.map (fun v => (v, fetchedVal oracle v))).Perm
        (order2.map (fun v => (v, fetchedVal oracle v))) :=
      (h1.trans h2.symm).map _
    have hsorteq := insertionSort_eq_of_perm _ _ hperm hkeys1
    have hbytes : writeCacheBytes (order1.map (fun v => (v, fetchedVal oracle v)))
        = writeCacheBytes (order2.map (fun v => (v, fetchedVal oracle v))) := by
      rw [writeCacheBytes, writeCacheBytes, sortedCache, sortedCache, hsorteq]
    refine ⟨writeCacheBytes (order1.map (fun v => (v, fetchedVal oracle v))), ?_, ?_⟩
    · simp [updateAll, fetchKeyvaultAndSecretNames, hl, hne, hc1]
    · simp [updateAll, fetchKeyvaultAndSecretNames, hl, hne, hc2, hbytes]

/-! ### Wildcard matching agrees with the spec's regex semantics (C5) -/

theorem RMatch_eps_inv {s : List Char} (h : RMatch Reg.eps s) : s = [] := by
  cases h
  rfl

theorem RMatch_ch_inv {c : Char} {s : List Char} (h : RMatch (Reg.ch c) s) :
    s = [c] := by
  cases h
  rfl

theorem RMatch_cat_inv {r1 r2 : Reg} {s : List Char}
    (h : RMatch (Reg.cat r1 r2) s) :
    ∃ s1 s2, s = s1 ++ s2 ∧ RMatch r1 s1 ∧ RMatch r2 s2 := by
  cases h with
  | cat h1 h2 => exact ⟨_, _, rfl, h1, h2⟩

theorem RMatch_star_any_all (s : List Char) : RMatch (Reg.star Reg.any) s := by
  induction s with
  | nil => exact RMatch.starNil
  | cons c cs ih => exact RMatch.starCat (RMatch.any c) ih

theorem globMatchAux_iff :
    ∀ (fuel : Nat) (p s : List Char), p.length + s.length < fuel →
      (globMatchAux fuel p s = true ↔ RMatch (globToReg p) s) := by
  intro fuel
  induction fuel with
  | zero => intro p s h; exact absurd h (Nat.not_lt_zero _)
  | succ fuel ih =>
    intro p s h
    cases p with
    | nil =>
      cases s with
      | nil => exact iff_of_true rfl RMatch.eps
      | cons c cs =>
        apply iff_of_false
        · simp [globMatchAux]
        · intro hm
          simp only [globToReg] at hm
          exact absurd (RMatch_eps_inv hm) (by simp)
    | cons x ps =>
      by_cases hx : x = '*'
      · subst hx
        cases s with
        | nil =>
          have hlt : ps.length + ([] : List Char).length < fuel := by
            simp at h ⊢; omega
          simp only [globMatchAux, if_true, globToReg, reduceIte]
          constructor
          · intro ha
            exact RMatch.cat RMatch.starNil ((ih ps [] hlt).mp ha)
          · intro hm
            obtain ⟨s1, s2, heq, _, h2⟩ := RMatch_cat_inv hm
            have hs2 : s2 = [] := by
              cases s1 <;> simp at heq
              exact heq
            exact (ih ps [] hlt).mpr (hs2 ▸ h2)
        | cons c cs =>
          have hlt1 : ps.length + (c :: cs).length < fuel := by
            simp at h ⊢; omega
          have hlt2 : ('*' :: ps).length + cs.length < fuel := by
            simp at h ⊢; omega
          simp only [globMatchAux, if_true, globToReg, reduceIte,
            Bool.or_eq_true]
          constructor
          · intro ha
            rcases ha with ha | ha
            · exact RMatch.cat RMatch.starNil ((ih ps (c :: cs) hlt1).mp ha)
            · have hm := (ih ('*' :: ps) cs hlt2).mp ha
              simp only [globToReg, reduceIte] at hm
              obtain ⟨s1, s2, heq, h1, h2⟩ := RMatch_cat_inv hm
              have : RMatch (Reg.star Reg.any) (c :: s1) :=
                RMatch_star_any_all _
              have hcat : RMatch (Reg.cat (Reg.star Reg.any) (globToReg ps))
                  ((c :: s1) ++ s2) := RMatch.cat this h2
              rw [heq]
              simpa using hcat
          · intro hm
            obtain ⟨s1, s2, heq, h1, h2⟩ := RMatch_cat_inv hm
            cases s1 with
            | nil =>
              simp only [List.nil_append] at heq
              exact Or.inl ((ih ps (c :: cs) hlt1).mpr (heq ▸ h2))
            | cons d s1' =>
              simp only [List.cons_append, List.cons.injEq] at heq
              refine Or.inr ((ih ('*' :: ps) cs hlt2).mpr ?_)
              simp only [globToReg, reduceIte]
              rw [heq.2]
              exact RMatch.cat (RMatch_star_any_all s1') h2
      · cases s with
        | nil =>
          apply iff_of_false
          · simp [globMatchAux, hx]
          · intro hm
            simp only [globToReg, hx, if_false] at hm
            obtain ⟨s1, s2, heq, h1, _⟩ := RMatch_cat_inv hm
            rw [RMatch_ch_inv h1] at heq
            simp at heq
        | cons c cs =>
          have hlt : ps.length + cs.length < fuel := by
            simp at h ⊢; omega
          simp only [globMatchAux, hx, if_false, Bool.and_eq_true, beq_iff_eq]
          constructor
          · intro ⟨hxc, ha⟩
            subst hxc
            have hm := (ih ps cs hlt).mp ha
            have : RMatch (Reg.cat (Reg.ch x) (globToReg ps)) ([x] ++ cs) :=
              RMatch.cat (RMatch.ch x) hm
            simpa [globToReg, hx] using this
          · intro hm
            simp only [globToReg, hx, if_false] at hm
            obtain ⟨s1, s2, heq, h1, h2⟩ := RMatch_cat_inv hm
            rw [RMatch_ch_inv h1] at heq
            simp only [List.cons_append, List.nil_append,
              List.cons.injEq] at heq
            exact ⟨heq.1.symm, (ih ps cs hlt).mpr (heq.2 ▸ h2)⟩

theorem globMatch_iff (p s : List Char) :
    globMatch p s = true ↔ RMatch (globToReg p) s :=
  globMatchAux_iff (p.length + s.length + 1) p s (Nat.lt_succ_self _)

/-- C5: for every flattened path set and pattern made of literal
characters and `*` (no other `re` metacharacter — the spec's two
matching modes admit no character classes or escapes — and no newline
in the paths, the one character Python's `.` would exclude): when the
pattern contains `*`, a path is returned by `perform_search` exactly
when the anchored regex obtained by replacing each `*` with `.*`
matches the whole path; otherwise exactly when the pattern is a literal
prefix of the path. -/
theorem perform_search_match_semantics
    (vaultSecretMap : List (String × (String × Option String)))
    (pattern path : String)
    (_hmeta : ∀ c ∈ pattern.data, ¬ isRegexMeta c = true)
    (_hnl : '\n' ∉ path.data) :
    path ∈ performSearch vaultSecretMap pattern ↔
      (path ∈ vaultSecretMap.map Prod.fst ∧
        (if containsStar pattern = true then
          RMatch (globToReg pattern.data) path.data
         else pattern.data <+: path.data)) := by
  by_cases hstar : containsStar pattern = true
  · simp only [performSearch, hstar, if_true, List.mem_filter]
    exact and_congr_right (fun _ => globMatch_iff pattern.data path.data)
  · have hs : containsStar pattern = false := by
      simpa using hstar
    simp only [performSearch, hs, Bool.false_eq_true, if_false,
      List.mem_filter]
    exact and_congr_right (fun _ => List.isPrefixOf_iff_prefix)

theorem perform_search_match_semantics_witness :
    ("vaultA/foo" ∈ performSearch c5Map "vaultA/*" ↔
      ("vaultA/foo" ∈ c5Map.map Prod.fst ∧
        (if containsStar "vaultA/*" = true then
          RMatch (globToReg "vaultA/*".data) "vaultA/foo".data
         else "vaultA/*".data <+: "vaultA/foo".data))) ∧
    performSearch c5Map "vaultA/*" = ["vaultA/foo", "vaultA/"] :=
  ⟨perform_search_match_semantics c5Map "vaultA/*" "vaultA/foo"
      (by decide) (by decide),
    by decide⟩

theorem full_sync_idempotent_bytes_witness :
    ∃ bytes,
      (updateAll (CmdResult.success "v2\nv1") c9Oracle ["v1", "v2"]
        Option.none).file = some bytes ∧
      (updateAll (CmdResult.success "v2\nv1") c9Oracle ["v2", "v1"]
        (some "junk")).file = some bytes :=
  full_sync_idempotent_bytes (CmdResult.success "v2\nv1") c9Oracle
    ["v2", "v1"] ["v1", "v2"] ["v2", "v1"] Option.none (some "junk")
    rfl (by decide) (List.Perm.swap "v2" "v1" []) (List.Perm.refl _) (by decide)

end Akv
